import Mathlib

/-!
Verification of the intraday trading backtest engine
(`intraday_strategy_backtest.py`, function `process_day`).

The engine is embedded shallowly:
* minute timestamps are integers (`ℤ`, minutes),
* prices are exact rationals (`ℚ`),
* a pandas dataframe of minute bars is a `List FineBar` in time order,
* the imperative fill / position / ledger loops become structural
  recursions over bar lists.

Configuration constants keep the values from the CONFIG block of the
source file.
-/

/-- A fine (1-minute) OHLCV bar.  `opn` models the `open` column
(`open` is a keyword in Lean). -/
structure FineBar where
  time : ℤ
  opn : ℚ
  high : ℚ
  low : ℚ
  close : ℚ
  volume : ℚ
  deriving DecidableEq, Repr

/-- Trade direction, as the `"LONG"` / `"SHORT"` strings of the source. -/
inductive Direction where
  | LONG
  | SHORT
  deriving DecidableEq, Repr

/-- Exit reasons produced by the engine: the strings `"StopLoss"`,
`"TrailingSL"`, `"Target"`, `"EOD_SquareOff"` of the source. -/
inductive ExitReason where
  | StopLoss
  | TrailingSL
  | Target
  | EOD_SquareOff
  deriving DecidableEq, Repr

-- CONFIG constants of the source file.

/-- `RISK_PER_TRADE = 0.005`. -/
def RISK_PER_TRADE : ℚ := 5 / 1000

/-- `STOP_LOSS_PCT = 0.005`. -/
def STOP_LOSS_PCT : ℚ := 5 / 1000

/-- `TARGET_PCT = 0.02`. -/
def TARGET_PCT : ℚ := 2 / 100

/-- `TRAIL_TRIGGER = 0.005`. -/
def TRAIL_TRIGGER : ℚ := 5 / 1000

/-- `TRAIL_STEP = 0.0075`. -/
def TRAIL_STEP : ℚ := 75 / 10000

-- ===============================
-- Fill Simulator
-- ===============================

/-- The bars the fill scan looks at:
`m1.loc[signal_time + 1min : signal_time + 10min]` — inclusive slice of
the time-indexed frame, i.e. bars with `t + 1 ≤ time ≤ t + 10`. -/
def fillWindow (m1 : List FineBar) (t : ℤ) : List FineBar :=
  m1.filter fun b => decide (t + 1 ≤ b.time) && decide (b.time ≤ t + 10)

/-- The per-bar fill condition of the scan loop:
Long `p_row["high"] >= trigger_price`, Short `p_row["low"] <= trigger_price`. -/
def fillCond (dir : Direction) (trig : ℚ) (b : FineBar) : Bool :=
  match dir with
  | Direction.LONG => decide (trig ≤ b.high)
  | Direction.SHORT => decide (b.low ≤ trig)

/-- The gap pricing rule: Long fills at
`p_row["open"] if p_row["open"] > trigger_price else trigger_price`,
Short symmetric. -/
def gapFill (dir : Direction) (trig : ℚ) (b : FineBar) : ℚ :=
  match dir with
  | Direction.LONG => if trig < b.opn then b.opn else trig
  | Direction.SHORT => if b.opn < trig then b.opn else trig

/-- The fill scan loop over `next_data`: first bar meeting `fillCond`
yields `(fill time, fill price)`, otherwise no fill. -/
def fillScan (dir : Direction) (trig : ℚ) : List FineBar → Option (ℤ × ℚ)
  | [] => none
  | b :: rest =>
    if fillCond dir trig b then some (b.time, gapFill dir trig b)
    else fillScan dir trig rest

/-- `--- CHECK FILL (Next 10 mins) ---` of the source: scan `fillWindow`
for the first qualifying bar. -/
def checkFill (m1 : List FineBar) (t : ℤ) (dir : Direction) (trig : ℚ) :
    Option (ℤ × ℚ) :=
  fillScan dir trig (fillWindow m1 t)

-- ===============================
-- Position State Machine
-- ===============================

/-- The `active_trade` dict of the source: direction, entry time/price,
current stop (`sl`), target, trailing-active flag and extreme favorable
price since entry. -/
structure ActiveTrade where
  direction : Direction
  entry_time : ℤ
  entry_price : ℚ
  sl : ℚ
  target : ℚ
  trail_active : Bool
  extreme_price : ℚ
  deriving DecidableEq, Repr

/-- Position initialisation on fill:
`sl = ep * (1 - STOP_LOSS_PCT)` for Long (`+` for Short),
`tgt = ep * (1 + TARGET_PCT)` for Long (`-` for Short),
trailing inactive, extreme = entry price. -/
def initTrade (dir : Direction) (ft : ℤ) (ep : ℚ) : ActiveTrade :=
  { direction := dir
    entry_time := ft
    entry_price := ep
    sl := match dir with
      | Direction.LONG => ep * (1 - STOP_LOSS_PCT)
      | Direction.SHORT => ep * (1 + STOP_LOSS_PCT)
    target := match dir with
      | Direction.LONG => ep * (1 + TARGET_PCT)
      | Direction.SHORT => ep * (1 - TARGET_PCT)
    trail_active := false
    extreme_price := ep }

/-- Step 1 of the bar loop, `CHECK EXIT FIRST (using existing SL)`:
Long — stop if `c_low <= sl` (reason `TrailingSL` when trailing active,
else `StopLoss`), otherwise target if `c_high >= target`; Short
symmetric.  Returns `(reason, exit price)` or `none`. -/
def checkExit (tr : ActiveTrade) (b : FineBar) : Option (ExitReason × ℚ) :=
  match tr.direction with
  | Direction.LONG =>
    if b.low ≤ tr.sl then
      some ((if tr.trail_active then ExitReason.TrailingSL else ExitReason.StopLoss), tr.sl)
    else if tr.target ≤ b.high then
      some (ExitReason.Target, tr.target)
    else none
  | Direction.SHORT =>
    if tr.sl ≤ b.high then
      some ((if tr.trail_active then ExitReason.TrailingSL else ExitReason.StopLoss), tr.sl)
    else if b.low ≤ tr.target then
      some (ExitReason.Target, tr.target)
    else none

/-- Step 2 of the bar loop, `UPDATE TRAILING (After verifying we survived
this bar)`: update the extreme favorable price, activate trailing once
the extreme has moved by `TRAIL_TRIGGER` from entry, and while active
ratchet the stop (`max` of current and proposed stop for Long, `min` for
Short). -/
def updateTrailing (tr : ActiveTrade) (b : FineBar) : ActiveTrade :=
  match tr.direction with
  | Direction.LONG =>
    let ex := max tr.extreme_price b.high
    let ta := tr.trail_active || decide (tr.entry_price * (1 + TRAIL_TRIGGER) ≤ ex)
    { tr with
      extreme_price := ex
      trail_active := ta
      sl := if ta then max tr.sl (ex * (1 - TRAIL_STEP)) else tr.sl }
  | Direction.SHORT =>
    let ex := min tr.extreme_price b.low
    let ta := tr.trail_active || decide (ex ≤ tr.entry_price * (1 - TRAIL_TRIGGER))
    { tr with
      extreme_price := ex
      trail_active := ta
      sl := if ta then min tr.sl (ex * (1 + TRAIL_STEP)) else tr.sl }

/-- A record of `day_trades`: entry/exit data, per-share P&L
(`exit - entry` for Long, `entry - exit` for Short) and exit reason. -/
structure ClosedTrade where
  direction : Direction
  entry_time : ℤ
  entry_price : ℚ
  exit_time : ℤ
  exit_price : ℚ
  pnl_per_share : ℚ
  exit_type : ExitReason
  deriving DecidableEq, Repr

/-- Build the `day_trades` record appended on exit. -/
def mkClosed (tr : ActiveTrade) (xt : ℤ) (xp : ℚ) (reason : ExitReason) :
    ClosedTrade :=
  { direction := tr.direction
    entry_time := tr.entry_time
    entry_price := tr.entry_price
    exit_time := xt
    exit_price := xp
    pnl_per_share := match tr.direction with
      | Direction.LONG => xp - tr.entry_price
      | Direction.SHORT => tr.entry_price - xp
    exit_type := reason }

/-- The bar loop over `trade_data` plus the EOD square-off: each bar
first runs the exit check with the carried-in state; if no exit, the
trailing update is applied and the loop continues; if the bars run out
with no exit, the position is closed at the last bar's close with
reason `EOD_SquareOff`. -/
def runPosition (tr : ActiveTrade) : List FineBar → Option ClosedTrade
  | [] => none
  | [b] =>
    match checkExit tr b with
    | some (reason, px) => some (mkClosed tr b.time px reason)
    | none => some (mkClosed (updateTrailing tr b) b.time b.close ExitReason.EOD_SquareOff)
  | b :: c :: rest =>
    match checkExit tr b with
    | some (reason, px) => some (mkClosed tr b.time px reason)
    | none => runPosition (updateTrailing tr b) (c :: rest)

/-- Resolution of one trade intent: run the fill scan and, on a fill,
drive the position over `trade_data = m1.loc[fill_time:]`. -/
def processIntent (m1 : List FineBar) (t : ℤ) (dir : Direction) (trig : ℚ) :
    Option ClosedTrade :=
  match checkFill m1 t dir trig with
  | none => none
  | some (ft, fp) =>
    runPosition (initTrade dir ft fp) (m1.filter fun b => decide (ft ≤ b.time))

-- ===============================
-- Short trigger lookback
-- ===============================

/-- `subset_m1 = m1.loc[signal_time - 5min : signal_time - 1min]`:
the inclusive slice of bars with `t - 5 ≤ time ≤ t - 1`. -/
def shortWindow (m1 : List FineBar) (t : ℤ) : List FineBar :=
  m1.filter fun b => decide (t - 5 ≤ b.time) && decide (b.time ≤ t - 1)

/-- The Short trigger: `subset_m1["low"].min()`, or no intent when the
lookback slice is empty (`if subset_m1.empty: continue`). -/
def shortTrigger (m1 : List FineBar) (t : ℤ) : Option ℚ :=
  match shortWindow m1 t with
  | [] => none
  | b :: rest => some (rest.foldl (fun m x => min m x.low) b.low)

/-- A Short signal end to end: compute the lookback trigger, then resolve
the intent; an empty lookback silently produces nothing. -/
def processShortSignal (m1 : List FineBar) (t : ℤ) : Option ClosedTrade :=
  match shortTrigger m1 t with
  | none => none
  | some trig => processIntent m1 t Direction.SHORT trig

-- ===============================
-- Capital Ledger
-- ===============================

/-- Python `int()` applied to an exact rational: truncation toward zero. -/
def pyInt (q : ℚ) : ℤ :=
  if 0 ≤ q then ⌊q⌋ else -⌊-q⌋

/-- Dynamic sizing of one trade:
`qty = max(1, int(current_capital * RISK_PER_TRADE / (entry_price * STOP_LOSS_PCT)))`. -/
def sizeQty (capital entry_price : ℚ) : ℤ :=
  max 1 (pyInt (capital * RISK_PER_TRADE / (entry_price * STOP_LOSS_PCT)))

/-- A `day_trades` record after the ledger has annotated it with `Qty`,
`PnL` and `Return`. -/
structure SizedTrade where
  trade : ClosedTrade
  qty : ℤ
  pnl : ℚ
  ret : ℚ
  deriving DecidableEq, Repr

/-- The ledger loop, `POST-PROCESSING ... Apply Dynamic Capital`:
for each trade in order, size against current capital, set
`PnL = PnL_Per_Share * qty` and `Return = PnL / current_capital`, then
`current_capital += PnL`.  Returns the final capital and the annotated
trades. -/
def applyLedger (capital : ℚ) : List ClosedTrade → ℚ × List SizedTrade
  | [] => (capital, [])
  | tr :: rest =>
    let qty := sizeQty capital tr.entry_price
    let pnl := tr.pnl_per_share * (qty : ℚ)
    let ret := pnl / capital
    let r := applyLedger (capital + pnl) rest
    (r.1, ⟨tr, qty, pnl, ret⟩ :: r.2)

/-- Bool comparison used to sort `day_trades` by `EntryTime`. -/
def entryLE (a b : ClosedTrade) : Bool :=
  decide (a.entry_time ≤ b.entry_time)

/-- `day_trades.sort(key=lambda x: x["EntryTime"])`: Python's stable sort,
modelled by the stable `List.mergeSort`. -/
def sortedTrades (ts : List ClosedTrade) : List ClosedTrade :=
  ts.mergeSort entryLE

/-- The whole post-processing step of `process_day`: stable-sort the
day's trades by entry time, then run the ledger loop. -/
def processLedger (capital : ℚ) (day_trades : List ClosedTrade) :
    ℚ × List SizedTrade :=
  applyLedger capital (sortedTrades day_trades)

-- ===============================
-- Auxiliary predicates used in statements
-- ===============================

/-- The stop-side exit condition of the bar loop:
Long `c_low <= sl`, Short `c_high >= sl`. -/
def stopHit (tr : ActiveTrade) (b : FineBar) : Bool :=
  match tr.direction with
  | Direction.LONG => decide (b.low ≤ tr.sl)
  | Direction.SHORT => decide (tr.sl ≤ b.high)

/-- The target-side exit condition of the bar loop:
Long `c_high >= target`, Short `c_low <= target`. -/
def targetHit (tr : ActiveTrade) (b : FineBar) : Bool :=
  match tr.direction with
  | Direction.LONG => decide (tr.target ≤ b.high)
  | Direction.SHORT => decide (b.low ≤ tr.target)

/-- `noExitRun tr l` holds when the bar loop starting from state `tr`
never takes the exit branch on any bar of `l` (the state evolving by
the trailing update each bar). -/
def noExitRun (tr : ActiveTrade) : List FineBar → Bool
  | [] => true
  | b :: rest => (checkExit tr b).isNone && noExitRun (updateTrailing tr b) rest

-- ===============================
-- Helper lemmas: fill scan
-- ===============================

lemma fillScan_eq_none_iff (dir : Direction) (trig : ℚ) (l : List FineBar) :
    fillScan dir trig l = none ↔ ∀ b ∈ l, fillCond dir trig b = false := by
  induction l with
  | nil => simp [fillScan]
  | cons b rest ih =>
    by_cases h : fillCond dir trig b
    · simp [fillScan, h]
    · simp only [Bool.not_eq_true] at h
      simp [fillScan, h, ih]

lemma fillScan_eq_some (dir : Direction) (trig : ℚ) (l : List FineBar)
    (ft : ℤ) (fp : ℚ) (h : fillScan dir trig l = some (ft, fp)) :
    ∃ pre b suf, l = pre ++ b :: suf ∧
      (∀ x ∈ pre, fillCond dir trig x = false) ∧
      fillCond dir trig b = true ∧
      ft = b.time ∧ fp = gapFill dir trig b := by
  induction l with
  | nil => simp [fillScan] at h
  | cons b rest ih =>
    by_cases hb : fillCond dir trig b
    · rw [fillScan, if_pos hb] at h
      simp only [Option.some.injEq, Prod.mk.injEq] at h
      obtain ⟨h1, h2⟩ := h
      exact ⟨[], b, rest, by simp, by simp, hb, h1.symm, h2.symm⟩
    · rw [fillScan, if_neg hb] at h
      simp only [Bool.not_eq_true] at hb
      obtain ⟨pre, c, suf, hsplit, hpre, hc, hft, hfp⟩ := ih h
      refine ⟨b :: pre, c, suf, by simp [hsplit], ?_, hc, hft, hfp⟩
      intro x hx
      rcases List.mem_cons.mp hx with rfl | hx
      · exact hb
      · exact hpre x hx

lemma mem_fillWindow (m1 : List FineBar) (t : ℤ) (b : FineBar)
    (h : b ∈ fillWindow m1 t) :
    b ∈ m1 ∧ t + 1 ≤ b.time ∧ b.time ≤ t + 10 := by
  simpa [fillWindow, List.mem_filter, and_assoc] using h

-- ===============================
-- Helper lemmas: trailing update and bar loop
-- ===============================

lemma updateTrailing_direction (tr : ActiveTrade) (b : FineBar) :
    (updateTrailing tr b).direction = tr.direction := by
  cases h : tr.direction <;> simp [updateTrailing, h]

lemma updateTrailing_entry_time (tr : ActiveTrade) (b : FineBar) :
    (updateTrailing tr b).entry_time = tr.entry_time := by
  cases h : tr.direction <;> simp [updateTrailing, h]

lemma updateTrailing_entry_price (tr : ActiveTrade) (b : FineBar) :
    (updateTrailing tr b).entry_price = tr.entry_price := by
  cases h : tr.direction <;> simp [updateTrailing, h]

lemma updateTrailing_active (tr : ActiveTrade) (b : FineBar)
    (h : tr.trail_active = true) :
    (updateTrailing tr b).trail_active = true := by
  cases hd : tr.direction <;> simp [updateTrailing, hd, h]

lemma updateTrailing_sl_long (tr : ActiveTrade) (b : FineBar)
    (h : tr.trail_active = true) (hd : tr.direction = Direction.LONG) :
    tr.sl ≤ (updateTrailing tr b).sl := by
  simp [updateTrailing, hd, h]

lemma updateTrailing_sl_short (tr : ActiveTrade) (b : FineBar)
    (h : tr.trail_active = true) (hd : tr.direction = Direction.SHORT) :
    (updateTrailing tr b).sl ≤ tr.sl := by
  simp [updateTrailing, hd, h]

lemma runPosition_isSome (tr : ActiveTrade) (l : List FineBar)
    (h : l ≠ []) : ∃ ct, runPosition tr l = some ct := by
  induction l generalizing tr with
  | nil => exact absurd rfl h
  | cons b rest ih =>
    cases rest with
    | nil => rcases he : checkExit tr b with _ | ⟨r, px⟩ <;> simp [runPosition, he]
    | cons c rest2 =>
      rcases he : checkExit tr b with _ | ⟨r, px⟩
      · simpa [runPosition, he] using ih (updateTrailing tr b) (by simp)
      · simp [runPosition, he]

lemma runPosition_entry (tr : ActiveTrade) (l : List FineBar)
    (ct : ClosedTrade) (h : runPosition tr l = some ct) :
    ct.entry_time = tr.entry_time ∧ ct.entry_price = tr.entry_price ∧
    ct.direction = tr.direction := by
  induction l generalizing tr with
  | nil => simp [runPosition] at h
  | cons b rest ih =>
    cases rest with
    | nil =>
      rcases he : checkExit tr b with _ | ⟨r, px⟩ <;>
        simp only [runPosition, he, Option.some.injEq] at h <;> subst h <;>
        simp [mkClosed, updateTrailing_entry_time, updateTrailing_entry_price,
          updateTrailing_direction]
    | cons c rest2 =>
      rcases he : checkExit tr b with _ | ⟨r, px⟩
      · simp only [runPosition, he] at h
        have := ih (updateTrailing tr b) h
        simpa [updateTrailing_entry_time, updateTrailing_entry_price,
          updateTrailing_direction] using this
      · simp only [runPosition, he, Option.some.injEq] at h
        subst h
        simp [mkClosed]

lemma runPosition_exit_mem (tr : ActiveTrade) (l : List FineBar)
    (ct : ClosedTrade) (h : runPosition tr l = some ct) :
    ∃ b ∈ l, ct.exit_time = b.time := by
  induction l generalizing tr with
  | nil => simp [runPosition] at h
  | cons b rest ih =>
    cases rest with
    | nil =>
      rcases he : checkExit tr b with _ | ⟨r, px⟩ <;>
        simp only [runPosition, he, Option.some.injEq] at h <;> subst h <;>
        exact ⟨b, by simp, rfl⟩
    | cons c rest2 =>
      rcases he : checkExit tr b with _ | ⟨r, px⟩
      · simp only [runPosition, he] at h
        obtain ⟨x, hx, hxt⟩ := ih (updateTrailing tr b) h
        exact ⟨x, by simp [hx], hxt⟩
      · simp only [runPosition, he, Option.some.injEq] at h
        subst h
        exact ⟨b, by simp, rfl⟩

lemma runPosition_eod (rest : List FineBar) :
    ∀ (tr : ActiveTrade) (b : FineBar),
    noExitRun tr (b :: rest) = true →
    ∃ ct, runPosition tr (b :: rest) = some ct ∧
      ct.exit_type = ExitReason.EOD_SquareOff ∧
      ct.exit_time = ((b :: rest).getLast (by simp)).time ∧
      ct.exit_price = ((b :: rest).getLast (by simp)).close ∧
      ct.entry_time = tr.entry_time ∧ ct.entry_price = tr.entry_price := by
  induction rest with
  | nil =>
    intro tr b h
    simp only [noExitRun, Bool.and_eq_true, Option.isNone_iff_eq_none] at h
    refine ⟨mkClosed (updateTrailing tr b) b.time b.close ExitReason.EOD_SquareOff,
      by simp [runPosition, h.1], ?_, ?_, ?_, ?_, ?_⟩ <;>
      simp [mkClosed, updateTrailing_entry_time, updateTrailing_entry_price]
  | cons c rest2 ih =>
    intro tr b h
    simp only [noExitRun, Bool.and_eq_true, Option.isNone_iff_eq_none] at h
    obtain ⟨ct, hrun, hty, hxt, hxp, het, hep⟩ :=
      ih (updateTrailing tr b) c (by
        have := h.2
        simpa [noExitRun] using this)
    refine ⟨ct, ?_, hty, ?_, ?_, ?_, ?_⟩
    · simpa [runPosition, h.1] using hrun
    · simpa using hxt
    · simpa using hxp
    · rw [het, updateTrailing_entry_time]
    · rw [hep, updateTrailing_entry_price]

-- ===============================
-- Helper lemmas: trailing ratchet monotonicity
-- ===============================

lemma foldl_updateTrailing_active (l : List FineBar) :
    ∀ tr : ActiveTrade, tr.trail_active = true →
    (l.foldl updateTrailing tr).trail_active = true := by
  induction l with
  | nil => intro tr h; simpa using h
  | cons b rest ih =>
    intro tr h
    simpa using ih (updateTrailing tr b) (updateTrailing_active tr b h)

lemma foldl_updateTrailing_direction (l : List FineBar) :
    ∀ tr : ActiveTrade, (l.foldl updateTrailing tr).direction = tr.direction := by
  induction l with
  | nil => intro tr; rfl
  | cons b rest ih =>
    intro tr
    rw [List.foldl_cons, ih (updateTrailing tr b), updateTrailing_direction]

lemma foldl_updateTrailing_sl_long (l : List FineBar) :
    ∀ tr : ActiveTrade, tr.trail_active = true →
    tr.direction = Direction.LONG →
    tr.sl ≤ (l.foldl updateTrailing tr).sl := by
  induction l with
  | nil => intro tr _ _; simp
  | cons b rest ih =>
    intro tr h hd
    calc tr.sl ≤ (updateTrailing tr b).sl := updateTrailing_sl_long tr b h hd
    _ ≤ ((b :: rest).foldl updateTrailing tr).sl := by
        rw [List.foldl_cons]
        exact ih (updateTrailing tr b) (updateTrailing_active tr b h)
          (by rw [updateTrailing_direction, hd])

lemma foldl_updateTrailing_sl_short (l : List FineBar) :
    ∀ tr : ActiveTrade, tr.trail_active = true →
    tr.direction = Direction.SHORT →
    (l.foldl updateTrailing tr).sl ≤ tr.sl := by
  induction l with
  | nil => intro tr _ _; simp
  | cons b rest ih =>
    intro tr h hd
    calc ((b :: rest).foldl updateTrailing tr).sl
        ≤ (updateTrailing tr b).sl := by
          rw [List.foldl_cons]
          exact ih (updateTrailing tr b) (updateTrailing_active tr b h)
            (by rw [updateTrailing_direction, hd])
    _ ≤ tr.sl := updateTrailing_sl_short tr b h hd

-- ===============================
-- Helper lemmas: gap fill, lookback minimum, sizing
-- ===============================

lemma gapFill_long (trig : ℚ) (b : FineBar) :
    gapFill Direction.LONG trig b = max b.opn trig := by
  unfold gapFill
  by_cases h : trig < b.opn
  · rw [if_pos h, max_eq_left h.le]
  · rw [if_neg h, max_eq_right (not_lt.mp h)]

lemma gapFill_short (trig : ℚ) (b : FineBar) :
    gapFill Direction.SHORT trig b = min b.opn trig := by
  unfold gapFill
  by_cases h : b.opn < trig
  · rw [if_pos h, min_eq_left h.le]
  · rw [if_neg h, min_eq_right (not_lt.mp h)]

lemma foldl_min_low (l : List FineBar) : ∀ (a : ℚ),
    (l.foldl (fun m x => min m x.low) a = a ∨
      ∃ b ∈ l, l.foldl (fun m x => min m x.low) a = b.low) ∧
    l.foldl (fun m x => min m x.low) a ≤ a ∧
    ∀ b ∈ l, l.foldl (fun m x => min m x.low) a ≤ b.low := by
  induction l with
  | nil => intro a; simp
  | cons b rest ih =>
    intro a
    rw [List.foldl_cons]
    obtain ⟨hmem, hle, hall⟩ := ih (min a b.low)
    refine ⟨?_, le_trans hle (min_le_left _ _), ?_⟩
    · rcases hmem with heq | ⟨c, hc, hcl⟩
      · rcases min_choice a b.low with hm | hm
        · exact Or.inl (by rw [heq, hm])
        · exact Or.inr ⟨b, by simp, by rw [heq, hm]⟩
      · exact Or.inr ⟨c, by simp [hc], hcl⟩
    · intro x hx
      rcases List.mem_cons.mp hx with rfl | hx
      · exact le_trans hle (min_le_right _ _)
      · exact hall x hx

lemma max_one_pyInt (q : ℚ) : max 1 (pyInt q) = max 1 ⌊q⌋ := by
  unfold pyInt
  by_cases h : 0 ≤ q
  · rw [if_pos h]
  · rw [if_neg h]
    push_neg at h
    have h1 : ⌊q⌋ ≤ 0 := Int.floor_nonpos h.le
    have h2 : (0 : ℤ) ≤ ⌊-q⌋ := Int.le_floor.mpr (by push_cast; linarith)
    rw [max_eq_left (by omega), max_eq_left (by omega)]

-- ===============================
-- Helper lemmas: capital ledger
-- ===============================

lemma applyLedger_length (ts : List ClosedTrade) : ∀ (cap : ℚ),
    (applyLedger cap ts).2.length = ts.length := by
  induction ts with
  | nil => intro cap; rfl
  | cons t rest ih => intro cap; simp [applyLedger, ih]

lemma applyLedger_fst (ts : List ClosedTrade) : ∀ (cap : ℚ),
    (applyLedger cap ts).1 = cap + ((applyLedger cap ts).2.map SizedTrade.pnl).sum := by
  induction ts with
  | nil => intro cap; simp [applyLedger]
  | cons t rest ih =>
    intro cap
    simp only [applyLedger, List.map_cons, List.sum_cons]
    rw [ih]
    ring

lemma applyLedger_getElem (ts : List ClosedTrade) :
    ∀ (cap : ℚ) (i : ℕ) (st : SizedTrade) (tgt : ClosedTrade),
    (applyLedger cap ts).2[i]? = some st → ts[i]? = some tgt →
    st.trade = tgt ∧
    st.qty = sizeQty (cap + (((applyLedger cap ts).2.take i).map SizedTrade.pnl).sum)
      tgt.entry_price ∧
    st.pnl = tgt.pnl_per_share * (st.qty : ℚ) ∧
    st.ret = st.pnl / (cap + (((applyLedger cap ts).2.take i).map SizedTrade.pnl).sum) := by
  induction ts with
  | nil => intro cap i st tgt h1 h2; simp at h2
  | cons t rest ih =>
    intro cap i st tgt h1 h2
    match i with
    | 0 =>
      simp only [applyLedger, List.getElem?_cons_zero, Option.some.injEq] at h1 h2
      subst h1
      subst h2
      simp
    | Nat.succ j =>
      simp only [applyLedger, List.getElem?_cons_succ] at h1 h2
      obtain ⟨e1, e2, e3, e4⟩ :=
        ih (cap + t.pnl_per_share * ((sizeQty cap t.entry_price : ℤ) : ℚ)) j st tgt h1 h2
      refine ⟨e1, ?_, e3, ?_⟩
      · rw [e2]
        congr 1
        simp only [applyLedger, List.take_succ_cons, List.map_cons, List.sum_cons]
        ring
      · rw [e4]
        congr 1
        simp only [applyLedger, List.take_succ_cons, List.map_cons, List.sum_cons]
        ring

lemma entryLE_trans : ∀ (a b c : ClosedTrade), entryLE a b → entryLE b c → entryLE a c := by
  intro a b c h1 h2
  simp only [entryLE, decide_eq_true_eq] at h1 h2 ⊢
  omega

lemma entryLE_total : ∀ (a b : ClosedTrade), entryLE a b || entryLE b a := by
  intro a b
  simp only [entryLE, Bool.or_eq_true, decide_eq_true_eq]
  omega

-- ===============================
-- Claims
-- ===============================

/-- C1: the Fill Simulator scans only the FineBars strictly after the
detection time up to and including the 10th following minute; the
position is opened at the first bar in that window meeting the trigger
condition, at the gap-aware fill price; if no bar in the window
qualifies, no position is opened and no ClosedTrade is produced. -/
theorem fill_simulator_window_gap (m1 : List FineBar) (t : ℤ)
    (dir : Direction) (trig : ℚ) :
    ((∀ b ∈ fillWindow m1 t, fillCond dir trig b = false) →
      processIntent m1 t dir trig = none) ∧
    (∀ ft fp, checkFill m1 t dir trig = some (ft, fp) →
      ∃ pre b suf, fillWindow m1 t = pre ++ b :: suf ∧
        (∀ x ∈ pre, fillCond dir trig x = false) ∧
        fillCond dir trig b = true ∧
        b ∈ m1 ∧ t < b.time ∧ b.time ≤ t + 10 ∧
        ft = b.time ∧ fp = gapFill dir trig b ∧
        ∃ ct, processIntent m1 t dir trig = some ct ∧
          ct.entry_time = b.time ∧ ct.entry_price = gapFill dir trig b ∧
          ct.direction = dir) := by
  constructor
  · intro h
    have hn : checkFill m1 t dir trig = none :=
      (fillScan_eq_none_iff dir trig (fillWindow m1 t)).mpr h
    simp [processIntent, hn]
  · intro ft fp h
    obtain ⟨pre, b, suf, hsplit, hpre, hb, hft, hfp⟩ :=
      fillScan_eq_some dir trig (fillWindow m1 t) ft fp h
    have hmem : b ∈ fillWindow m1 t := by rw [hsplit]; simp
    obtain ⟨hm1, hlb, hub⟩ := mem_fillWindow m1 t b hmem
    have hmemtd : b ∈ m1.filter (fun x => decide (ft ≤ x.time)) := by
      rw [List.mem_filter]
      exact ⟨hm1, by simp [hft]⟩
    obtain ⟨ct, hct⟩ :=
      runPosition_isSome (initTrade dir ft fp) _ (List.ne_nil_of_mem hmemtd)
    have hpi : processIntent m1 t dir trig = some ct := by
      simp only [processIntent, h]
      exact hct
    obtain ⟨he1, he2, he3⟩ := runPosition_entry _ _ _ hct
    refine ⟨pre, b, suf, hsplit, hpre, hb, hm1, by omega, hub, hft, hfp,
      ct, hpi, ?_, ?_, ?_⟩
    · rw [he1]; simpa [initTrade] using hft
    · rw [he2]; simpa [initTrade] using hfp
    · rw [he3]; simp [initTrade]

/-- Witness for C1 at a concrete input: a window whose single bar never
reaches the Long trigger produces no trade record. -/
theorem fill_simulator_window_gap_witness :
    processIntent [⟨1, 10, 20, 5, 15, 0⟩] 0 Direction.LONG 50 = none :=
  (fill_simulator_window_gap [⟨1, 10, 20, 5, 15, 0⟩] 0 Direction.LONG 50).1
    (by decide)

/-- C2: the exit check runs before any trailing update of the bar, using
the stop carried in from before the bar; the stop/trailing-stop exit
takes precedence over the target exit, the exit price is the current
stop (or target), and the reason is TrailingSL exactly when trailing is
active. -/
theorem exit_precedence_stop_over_target (tr : ActiveTrade) (b : FineBar)
    (rest : List FineBar) :
    (stopHit tr b = true →
      checkExit tr b =
        some ((if tr.trail_active then ExitReason.TrailingSL else ExitReason.StopLoss), tr.sl) ∧
      runPosition tr (b :: rest) =
        some (mkClosed tr b.time tr.sl
          (if tr.trail_active then ExitReason.TrailingSL else ExitReason.StopLoss))) ∧
    (stopHit tr b = false → targetHit tr b = true →
      checkExit tr b = some (ExitReason.Target, tr.target) ∧
      runPosition tr (b :: rest) =
        some (mkClosed tr b.time tr.target ExitReason.Target)) := by
  constructor
  · intro h
    have hce : checkExit tr b =
        some ((if tr.trail_active then ExitReason.TrailingSL else ExitReason.StopLoss), tr.sl) := by
      cases hd : tr.direction <;>
        · simp only [stopHit, hd, decide_eq_true_eq] at h
          simp [checkExit, hd, h]
    exact ⟨hce, by cases rest <;> simp [runPosition, hce]⟩
  · intro hs ht
    have hce : checkExit tr b = some (ExitReason.Target, tr.target) := by
      cases hd : tr.direction <;>
        · simp only [stopHit, hd, decide_eq_false_iff_not] at hs
          simp only [targetHit, hd, decide_eq_true_eq] at ht
          simp [checkExit, hd, hs, ht]
    exact ⟨hce, by cases rest <;> simp [runPosition, hce]⟩

/-- Witness for C2 at a concrete input: a bar whose low touches the
carried-in stop exits at that stop with reason StopLoss (trailing
inactive), even though its high also reaches the target. -/
theorem exit_precedence_stop_over_target_witness :
    checkExit (initTrade Direction.LONG 0 100) ⟨1, 100, 103, 99, 100, 0⟩ =
      some ((if (initTrade Direction.LONG 0 100).trail_active then ExitReason.TrailingSL
        else ExitReason.StopLoss), (initTrade Direction.LONG 0 100).sl) ∧
    runPosition (initTrade Direction.LONG 0 100) [⟨1, 100, 103, 99, 100, 0⟩] =
      some (mkClosed (initTrade Direction.LONG 0 100) (1 : ℤ)
        (initTrade Direction.LONG 0 100).sl
        (if (initTrade Direction.LONG 0 100).trail_active then ExitReason.TrailingSL
          else ExitReason.StopLoss)) :=
  (exit_precedence_stop_over_target (initTrade Direction.LONG 0 100)
      ⟨1, 100, 103, 99, 100, 0⟩ []).1
    (by norm_num [stopHit, initTrade, STOP_LOSS_PCT])

/-- C3: the trailing-active flag never reverts (once active it stays
active through any further bars), and once active the stop is
monotonically non-decreasing for a Long position and non-increasing for
a Short position across all subsequent bars. -/
theorem trailing_oneway_and_stop_monotone (tr : ActiveTrade)
    (l : List FineBar) (h : tr.trail_active = true) :
    (l.foldl updateTrailing tr).trail_active = true ∧
    (tr.direction = Direction.LONG →
      tr.sl ≤ (l.foldl updateTrailing tr).sl) ∧
    (tr.direction = Direction.SHORT →
      (l.foldl updateTrailing tr).sl ≤ tr.sl) :=
  ⟨foldl_updateTrailing_active l tr h,
    fun hd => foldl_updateTrailing_sl_long l tr h hd,
    fun hd => foldl_updateTrailing_sl_short l tr h hd⟩

/-- Witness for C3 at a concrete input: a Long position with trailing
already active keeps the flag and never lowers its stop over a bar. -/
theorem trailing_oneway_and_stop_monotone_witness :
    (([⟨1, 100, 107, 100, 107, 0⟩] : List FineBar).foldl updateTrailing
      { initTrade Direction.LONG 0 100 with trail_active := true }).trail_active = true ∧
    ({ initTrade Direction.LONG 0 100 with trail_active := true } : ActiveTrade).sl ≤
      (([⟨1, 100, 107, 100, 107, 0⟩] : List FineBar).foldl updateTrailing
        { initTrade Direction.LONG 0 100 with trail_active := true }).sl :=
  ⟨(trailing_oneway_and_stop_monotone
      { initTrade Direction.LONG 0 100 with trail_active := true }
      [⟨1, 100, 107, 100, 107, 0⟩] rfl).1,
    (trailing_oneway_and_stop_monotone
      { initTrade Direction.LONG 0 100 with trail_active := true }
      [⟨1, 100, 107, 100, 107, 0⟩] rfl).2.1 rfl⟩

/-- C4: every produced ClosedTrade carries one of the four exit reasons;
when the bar sequence is exhausted with no exit, the position closes at
the last bar's close with reason EOD_SquareOff; and a nonempty bar
sequence always yields exactly one ClosedTrade (the `Option` is `some`
of a single record). -/
theorem closure_reasons_and_eod (tr : ActiveTrade) (b : FineBar)
    (rest : List FineBar) :
    (∃ ct, runPosition tr (b :: rest) = some ct ∧
      (ct.exit_type = ExitReason.StopLoss ∨ ct.exit_type = ExitReason.TrailingSL ∨
        ct.exit_type = ExitReason.Target ∨ ct.exit_type = ExitReason.EOD_SquareOff)) ∧
    (noExitRun tr (b :: rest) = true →
      ∃ ct, runPosition tr (b :: rest) = some ct ∧
        ct.exit_type = ExitReason.EOD_SquareOff ∧
        ct.exit_time = ((b :: rest).getLast (by simp)).time ∧
        ct.exit_price = ((b :: rest).getLast (by simp)).close ∧
        ct.entry_time = tr.entry_time ∧ ct.entry_price = tr.entry_price) := by
  constructor
  · obtain ⟨ct, hct⟩ := runPosition_isSome tr (b :: rest) (by simp)
    refine ⟨ct, hct, ?_⟩
    cases hty : ct.exit_type <;> simp
  · intro h
    obtain ⟨ct, hrun, hty, hxt, hxp, het, hep⟩ := runPosition_eod rest tr b h
    exact ⟨ct, hrun, hty, hxt, hxp, het, hep⟩

/-- Witness for C4 at a concrete input: a single bar that triggers
neither stop nor target forces an EOD square-off at that bar's close. -/
theorem closure_reasons_and_eod_witness :
    ∃ ct, runPosition (initTrade Direction.LONG 0 100)
        [⟨1, 100, 1004/10, 100, 1002/10, 0⟩] = some ct ∧
      ct.exit_type = ExitReason.EOD_SquareOff ∧
      ct.exit_time = (([⟨1, 100, 1004/10, 100, 1002/10, 0⟩] :
        List FineBar).getLast (by simp)).time ∧
      ct.exit_price = (([⟨1, 100, 1004/10, 100, 1002/10, 0⟩] :
        List FineBar).getLast (by simp)).close ∧
      ct.entry_time = (initTrade Direction.LONG 0 100).entry_time ∧
      ct.entry_price = (initTrade Direction.LONG 0 100).entry_price :=
  (closure_reasons_and_eod (initTrade Direction.LONG 0 100)
      ⟨1, 100, 1004/10, 100, 1002/10, 0⟩ []).2
    (by norm_num [noExitRun, initTrade, checkExit, updateTrailing,
      STOP_LOSS_PCT, TARGET_PCT])

/-- C5: the Capital Ledger processes the day's trades in entry-time
ascending order (a stable permutation of the day's list) and, for each
trade in that order, sets quantity = floor(capital-before × risk ÷
(entry price × stop-loss fraction)) floored to a minimum of 1, P&L =
quantity × per-share P&L, return = P&L ÷ capital-before, and only then
adds the P&L to the running capital. -/
theorem ledger_order_sizing_sequence (cap : ℚ) (ts : List ClosedTrade) :
    (sortedTrades ts).Perm ts ∧
    (sortedTrades ts).Pairwise (fun a b => a.entry_time ≤ b.entry_time) ∧
    (∀ a b : ClosedTrade, a.entry_time ≤ b.entry_time →
      [a, b].Sublist ts → [a, b].Sublist (sortedTrades ts)) ∧
    (processLedger cap ts).2.length = (sortedTrades ts).length ∧
    (∀ (i : ℕ) (st : SizedTrade) (tgt : ClosedTrade),
      (processLedger cap ts).2[i]? = some st → (sortedTrades ts)[i]? = some tgt →
      st.trade = tgt ∧
      st.qty = max 1 ⌊(cap + (((processLedger cap ts).2.take i).map SizedTrade.pnl).sum) *
        RISK_PER_TRADE / (tgt.entry_price * STOP_LOSS_PCT)⌋ ∧
      st.pnl = tgt.pnl_per_share * (st.qty : ℚ) ∧
      st.ret = st.pnl /
        (cap + (((processLedger cap ts).2.take i).map SizedTrade.pnl).sum)) ∧
    (processLedger cap ts).1 =
      cap + ((processLedger cap ts).2.map SizedTrade.pnl).sum := by
  refine ⟨List.mergeSort_perm ts entryLE, ?_, ?_, applyLedger_length _ _, ?_, ?_⟩
  · exact (List.sorted_mergeSort entryLE_trans entryLE_total ts).imp
      (fun hab => by simpa [entryLE] using hab)
  · intro a b hab hsub
    exact List.pair_sublist_mergeSort entryLE_trans entryLE_total
      (by simpa [entryLE] using hab) hsub
  · intro i st tgt h1 h2
    simp only [processLedger] at h1 ⊢
    obtain ⟨e1, e2, e3, e4⟩ :=
      applyLedger_getElem (sortedTrades ts) cap i st tgt h1 h2
    refine ⟨e1, ?_, e3, e4⟩
    rw [e2]
    unfold sizeQty
    rw [max_one_pyInt]
  · exact applyLedger_fst _ _

/-- Witness for C5 at a concrete input: one Long trade entered at 100 and
exited at 102 under capital 1,000,000 is sized to 10,000 shares with
P&L 20,000 and return 2%. -/
theorem ledger_order_sizing_sequence_witness :
    ((⟨⟨Direction.LONG, 5, 100, 7, 102, 2, ExitReason.Target⟩, 10000, 20000, 1/50⟩ :
        SizedTrade).trade =
      (⟨Direction.LONG, 5, 100, 7, 102, 2, ExitReason.Target⟩ : ClosedTrade)) ∧
    ((⟨⟨Direction.LONG, 5, 100, 7, 102, 2, ExitReason.Target⟩, 10000, 20000, 1/50⟩ :
        SizedTrade).qty =
      max 1 ⌊(1000000 + (((processLedger 1000000
        [⟨Direction.LONG, 5, 100, 7, 102, 2, ExitReason.Target⟩]).2.take 0).map
          SizedTrade.pnl).sum) * RISK_PER_TRADE /
        ((⟨Direction.LONG, 5, 100, 7, 102, 2, ExitReason.Target⟩ :
          ClosedTrade).entry_price * STOP_LOSS_PCT)⌋) := by
  have h := (ledger_order_sizing_sequence 1000000
      [⟨Direction.LONG, 5, 100, 7, 102, 2, ExitReason.Target⟩]).2.2.2.2.1 0
    ⟨⟨Direction.LONG, 5, 100, 7, 102, 2, ExitReason.Target⟩, 10000, 20000, 1/50⟩
    ⟨Direction.LONG, 5, 100, 7, 102, 2, ExitReason.Target⟩
    (by norm_num [processLedger, sortedTrades, applyLedger, sizeQty, pyInt,
      RISK_PER_TRADE, STOP_LOSS_PCT, List.mergeSort])
    (by norm_num [sortedTrades, List.mergeSort])
  exact ⟨h.1, h.2.1⟩

/-- C6: the claim asks sizing to fail fast with a data-validation error
on a non-positive entry price; the code instead sizes the trade
silently — at entry price −100 and capital 1,000,000 the dynamic-sizing
formula yields the clamped quantity 1 with no error path at all. -/
theorem sizing_negative_price_is_silent :
    sizeQty 1000000 (-100) = 1 := by
  norm_num [sizeQty, pyInt, RISK_PER_TRADE, STOP_LOSS_PCT]

/-- C7: for every day, the sum of realized P&L over the processed trades
equals exactly the end-of-day capital minus the start-of-day capital. -/
theorem daily_pnl_equals_capital_delta (cap : ℚ) (ts : List ClosedTrade) :
    ((processLedger cap ts).2.map SizedTrade.pnl).sum =
      (processLedger cap ts).1 - cap := by
  simp only [processLedger]
  rw [applyLedger_fst (sortedTrades ts) cap]
  ring

/-- C8: a Short trigger is the minimum low over the FineBars in the
inclusive range [detection − 5, detection − 1] (bars strictly preceding
the detection bar); when no bar lies in that range, the intent is
silently discarded — no trigger, no trade, no error. -/
theorem short_trigger_lookback_min (m1 : List FineBar) (t : ℤ) :
    (shortWindow m1 t = [] →
      shortTrigger m1 t = none ∧ processShortSignal m1 t = none) ∧
    (∀ q, shortTrigger m1 t = some q →
      (∃ b ∈ shortWindow m1 t, q = b.low) ∧
      ∀ b ∈ shortWindow m1 t, q ≤ b.low) ∧
    (∀ b ∈ shortWindow m1 t, b ∈ m1 ∧ t - 5 ≤ b.time ∧ b.time ≤ t - 1) := by
  refine ⟨?_, ?_, ?_⟩
  · intro h
    constructor
    · simp [shortTrigger, h]
    · simp [processShortSignal, shortTrigger, h]
  · intro q hq
    unfold shortTrigger at hq
    rcases hw : shortWindow m1 t with _ | ⟨b, rest⟩ <;> rw [hw] at hq
    · exact absurd hq (by simp)
    · simp only [Option.some.injEq] at hq
      subst hq
      obtain ⟨hmem, hle, hall⟩ := foldl_min_low rest b.low
      constructor
      · rcases hmem with heq | ⟨c, hc, hcl⟩
        · exact ⟨b, by simp, heq⟩
        · exact ⟨c, by simp [hc], hcl⟩
      · intro x hx
        rcases List.mem_cons.mp hx with rfl | hx
        · exact hle
        · exact hall x hx
  · intro b hb
    simpa [shortWindow, List.mem_filter, and_assoc] using hb

/-- Witness for C8 at a concrete input: a session whose only bar lies
after the detection time has an empty lookback window, so the Short
intent is dropped with no trade. -/
theorem short_trigger_lookback_min_witness :
    shortTrigger [⟨10, 1, 1, 1, 1, 0⟩] 0 = none ∧
    processShortSignal [⟨10, 1, 1, 1, 1, 0⟩] 0 = none :=
  (short_trigger_lookback_min [⟨10, 1, 1, 1, 1, 0⟩] 0).1 (by decide)

/-- C9: every ClosedTrade produced from an intent has exit time ≥ entry
time, and entry time ≥ (in fact strictly after) the intent's detection
time. -/
theorem trade_times_ordered (m1 : List FineBar) (t : ℤ) (dir : Direction)
    (trig : ℚ) (ct : ClosedTrade)
    (h : processIntent m1 t dir trig = some ct) :
    t ≤ ct.entry_time ∧ ct.entry_time ≤ ct.exit_time := by
  unfold processIntent at h
  rcases hcf : checkFill m1 t dir trig with _ | ⟨ft, fp⟩ <;> rw [hcf] at h
  · exact absurd h (by simp)
  · obtain ⟨pre, b, suf, hsplit, hpre, hb, hft, hfp⟩ :=
      fillScan_eq_some dir trig (fillWindow m1 t) ft fp hcf
    have hmem : b ∈ fillWindow m1 t := by rw [hsplit]; simp
    obtain ⟨hm1, hlb, hub⟩ := mem_fillWindow m1 t b hmem
    obtain ⟨he1, he2, he3⟩ := runPosition_entry _ _ _ h
    obtain ⟨x, hx, hxt⟩ := runPosition_exit_mem _ _ _ h
    have hxge : ft ≤ x.time := by
      rw [List.mem_filter] at hx
      simpa using hx.2
    have hent : ct.entry_time = ft := by
      rw [he1]; simp [initTrade]
    constructor
    · rw [hent]; omega
    · rw [hent, hxt]; exact hxge

/-- Witness for C9 at a concrete input: a Long intent detected at minute
0 fills at minute 1 and exits at minute 1. -/
theorem trade_times_ordered_witness :
    processIntent [⟨1, 100, 101, 99, 100, 0⟩] 0 Direction.LONG 100 =
      some ⟨Direction.LONG, 1, 100, 1, 995/10, -(1/2), ExitReason.StopLoss⟩ ∧
    (0 : ℤ) ≤ (⟨Direction.LONG, 1, 100, 1, 995/10, -(1/2),
      ExitReason.StopLoss⟩ : ClosedTrade).entry_time ∧
    (⟨Direction.LONG, 1, 100, 1, 995/10, -(1/2),
      ExitReason.StopLoss⟩ : ClosedTrade).entry_time ≤
      (⟨Direction.LONG, 1, 100, 1, 995/10, -(1/2),
        ExitReason.StopLoss⟩ : ClosedTrade).exit_time := by
  have hp : processIntent [⟨1, 100, 101, 99, 100, 0⟩] 0 Direction.LONG 100 =
      some ⟨Direction.LONG, 1, 100, 1, 995/10, -(1/2), ExitReason.StopLoss⟩ := by
    norm_num [processIntent, checkFill, fillWindow, fillScan, fillCond, gapFill,
      initTrade, runPosition, checkExit, mkClosed, STOP_LOSS_PCT, TARGET_PCT,
      List.filter]
  exact ⟨hp, trade_times_ordered _ _ _ _ _ hp⟩

/-- C10: a filled Long order's entry price is the max of the fill bar's
open and the trigger (hence ≥ trigger); a filled Short order's entry
price is the min of the fill bar's open and the trigger (hence ≤
trigger). -/
theorem fill_price_gap_bounds (m1 : List FineBar) (t : ℤ) (dir : Direction)
    (trig : ℚ) (ct : ClosedTrade)
    (h : processIntent m1 t dir trig = some ct) :
    (dir = Direction.LONG → trig ≤ ct.entry_price ∧
      ∃ b ∈ fillWindow m1 t, ct.entry_price = max b.opn trig) ∧
    (dir = Direction.SHORT → ct.entry_price ≤ trig ∧
      ∃ b ∈ fillWindow m1 t, ct.entry_price = min b.opn trig) := by
  unfold processIntent at h
  rcases hcf : checkFill m1 t dir trig with _ | ⟨ft, fp⟩ <;> rw [hcf] at h
  · exact absurd h (by simp)
  · obtain ⟨pre, b, suf, hsplit, hpre, hb, hft, hfp⟩ :=
      fillScan_eq_some dir trig (fillWindow m1 t) ft fp hcf
    have hmem : b ∈ fillWindow m1 t := by rw [hsplit]; simp
    obtain ⟨he1, he2, he3⟩ := runPosition_entry _ _ _ h
    have hep : ct.entry_price = fp := by
      rw [he2]; simp [initTrade]
    constructor
    · intro hd
      subst hd
      rw [hep, hfp, gapFill_long]
      exact ⟨le_max_right _ _, b, hmem, rfl⟩
    · intro hd
      subst hd
      rw [hep, hfp, gapFill_short]
      exact ⟨min_le_right _ _, b, hmem, rfl⟩

/-- Witness for C10 at a concrete input: the Long fill of the C9 scenario
enters at max(open, trigger) = 100 ≥ trigger. -/
theorem fill_price_gap_bounds_witness :
    (100 : ℚ) ≤ (⟨Direction.LONG, 1, 100, 1, 995/10, -(1/2),
      ExitReason.StopLoss⟩ : ClosedTrade).entry_price ∧
    ∃ b ∈ fillWindow [⟨1, 100, 101, 99, 100, 0⟩] 0,
      (⟨Direction.LONG, 1, 100, 1, 995/10, -(1/2),
        ExitReason.StopLoss⟩ : ClosedTrade).entry_price = max b.opn 100 := by
  have hp : processIntent [⟨1, 100, 101, 99, 100, 0⟩] 0 Direction.LONG 100 =
      some ⟨Direction.LONG, 1, 100, 1, 995/10, -(1/2), ExitReason.StopLoss⟩ := by
    norm_num [processIntent, checkFill, fillWindow, fillScan, fillCond, gapFill,
      initTrade, runPosition, checkExit, mkClosed, STOP_LOSS_PCT, TARGET_PCT,
      List.filter]
  exact (fill_price_gap_bounds _ _ _ _ _ hp).1 rfl
